import Mathlib

/-!
Density accumulation and tone mapping of `strange_attractor.c`.

Modelling conventions.

* A C `double` is an element of a linearly ordered field `F` with a floor
  function. The result of a double operation is the exact result passed
  through the rounding function `rnd` of the floating-point environment
  `m : LibM F`; the literal `0.1` is rounded the same way. `realLibM` is
  exact arithmetic (`rnd` the identity), `dblLibM` is binary64 with
  rounding to nearest, ties to even (`fl64`; normal range, no overflow).
  A double operation whose C result is an infinity or a NaN (division by
  zero, `pow(0, negative)`) has no value in `F`; it yields
  `Fault.non_finite`.
* The functions of `math.h` (`sin`, `cos`, `pow`) are fields of `LibM F`.
  The six update formulas are kept as the formulas over `m.sin` and
  `m.cos`; `render_fractal` takes the update pair as arbitrary functions.
* A C `int` is an `Int`; the one place where an `int` is incremented
  (`sample_data[j][i]++`) wraps modulo `2^32`. The conversion of an `int`
  to a double is exact.
* The conversion `(int) d` of a double truncates toward zero when the
  truncated value fits an `int`. C leaves the other case undefined; the
  model returns `INT_MIN` there, the result of the x86-64 conversion
  instruction.
* The density grid `int **` is a list of rows, each a list of cells.
-/

namespace StrangeAttractor

/-- Ways in which a run leaves the model. -/
inductive Fault where
  | missing_key
  | non_finite
  | out_of_bounds
  deriving DecidableEq, Repr

/-- The floating-point environment: the functions of `math.h` the program
calls, and the rounding `rnd` applied to the exact result of an arithmetic
operation. -/
structure LibM (F : Type) where
  sin : F → F
  cos : F → F
  pow : F → F → F
  rnd : F → F

/-- Exact arithmetic: the real sine, cosine and power functions, no
rounding. -/
noncomputable def realLibM : LibM ℝ :=
  ⟨Real.sin, Real.cos, fun x y => x ^ y, fun x => x⟩

/-- Rounding to the nearest integer, ties to the even one. -/
def round_even {F : Type} [LinearOrderedField F] [FloorRing F] (q : F) : Int :=
  if q - (Int.floor q : F) < 1 / 2 then Int.floor q
  else if 1 / 2 < q - (Int.floor q : F) then Int.floor q + 1
  else if Int.floor q % 2 = 0 then Int.floor q else Int.floor q + 1

/-- Rounding of a number to binary64, to nearest, ties to even: the
significand is the number scaled into `[2^52, 2^53)` and rounded to an
integer (normal range, no overflow). -/
def fl64 {F : Type} [LinearOrderedField F] [FloorRing F] (x : F) : F :=
  if x = 0 then 0
  else (round_even (x / (2 : F) ^ (Int.log 2 |x| - 52)) : F) * (2 : F) ^ (Int.log 2 |x| - 52)

/-- Binary64 arithmetic: every operation rounded by `fl64`, the functions
of `math.h` taken as correctly rounded. -/
noncomputable def dblLibM : LibM ℝ :=
  ⟨fun x => fl64 (Real.sin x), fun x => fl64 (Real.cos x), fun x y => fl64 (x ^ y), fl64⟩

/-- Expansion of `#define MAX(x, y) (x > y) ? x : y`; every use in the
program is the whole right-hand side of an assignment, so the missing
parentheses of the expansion change nothing. -/
def MAX {α : Type} [LT α] [DecidableRel (fun a b : α => a < b)] (x y : α) : α :=
  if x > y then x else y

/-- Expansion of `#define MIN(x, y) (x < y) ? x : y`. -/
def MIN {α : Type} [LT α] [DecidableRel (fun a b : α => a < b)] (x y : α) : α :=
  if x < y then x else y

/-- Truncation toward zero of a number, as an unbounded integer. -/
def trunc_toward_zero {F : Type} [LinearOrderedField F] [FloorRing F] (x : F) : Int :=
  if x < 0 then -Int.floor (-x) else Int.floor x

/-- The conversion `(int) d`: truncation toward zero when the truncated
value fits a 32-bit `int`, and `INT_MIN` (the x86-64 result of a
conversion C leaves undefined) when it does not. -/
def c_int {F : Type} [LinearOrderedField F] [FloorRing F] (d : F) : Int :=
  if -2147483648 ≤ trunc_toward_zero d ∧ trunc_toward_zero d ≤ 2147483647 then
    trunc_toward_zero d
  else -2147483648

/-- Double division `a / b`; a zero divisor gives an infinity or a NaN. -/
def c_div {F : Type} [LinearOrderedField F] (m : LibM F) (a b : F) : Except Fault F :=
  if b = 0 then .error .non_finite else .ok (m.rnd (a / b))

/-- The call `pow(x, y)` for a base `x ≥ 0`; `pow(0, y)` with `y < 0` is
an infinity. -/
def c_pow {F : Type} [LinearOrderedField F] (m : LibM F) (x y : F) : Except Fault F :=
  if x = 0 ∧ y < 0 then .error .non_finite else .ok (m.pow x y)

/-- Two's complement reduction of an integer to the range of a 32-bit `int`. -/
def wrap32 (z : Int) : Int :=
  (z + 2147483648) % 4294967296 - 2147483648

/-- The density grid: `Ny` rows of `Nx` cells. -/
abbrev Grid := List (List Int)

/-- Modelled from the spec: `calloc_2d_array` lives in `arrays.c`, which is
not among the sources; the spec says the density grid is a 2D array of
`Ny` rows by `Nx` columns initialised to zero. -/
def calloc_2d_array (Ny Nx : Int) : Grid :=
  List.replicate Ny.toNat (List.replicate Nx.toNat 0)

/-- The cell `g[j][i]` read as a number (0 outside the grid; only used in
statements). -/
def cell (g : Grid) (j i : Nat) : Int :=
  (g.getD j []).getD i 0

/-- The entry in row `j`, column `i` of a two-dimensional array, when the
array has one there. -/
def pixel {α : Type} (img : List (List α)) (j i : Nat) : Option α :=
  (img.get? j).bind (fun r => r.get? i)

/-- Sum of all cells of the grid. -/
def grid_sum (g : Grid) : Int :=
  (g.map List.sum).sum

/-- The statement `row[i]++` on one row. -/
def row_incr : List Int → Nat → Except Fault (List Int)
  | [], _ => .error .out_of_bounds
  | v :: vs, 0 => .ok (wrap32 (v + 1) :: vs)
  | v :: vs, i + 1 => (row_incr vs i).map (fun r => v :: r)

/-- The statement `sample_data[j][i]++`. -/
def grid_incr : Grid → Nat → Nat → Except Fault Grid
  | [], _, _ => .error .out_of_bounds
  | r :: rs, 0, i => (row_incr r i).map (fun r2 => r2 :: rs)
  | r :: rs, j + 1, i => (grid_incr rs j i).map (fun g => r :: g)

/-- The grid has `Ny` rows of `Nx` cells each. -/
def Shape (g : Grid) (Ny Nx : Nat) : Prop :=
  g.length = Ny ∧ ∀ r ∈ g, r.length = Nx

/-- Every cell of the grid lies in `[0, B]`. -/
def Bounded (g : Grid) (B : Int) : Prop :=
  ∀ r ∈ g, ∀ v ∈ r, 0 ≤ v ∧ v ≤ B

/-- The statement `sample_data[j][i]++` for `int` indices. -/
def sample_incr (g : Grid) (j i : Int) : Except Fault Grid :=
  if j < 0 ∨ i < 0 then .error .out_of_bounds else grid_incr g j.toNat i.toNat

section Accumulator

variable {F : Type} [LinearOrderedField F] [FloorRing F]

/-- Lines 255-259 of `render_fractal`: the cell indices `(i, j)` of the
point `(x, y)`. -/
def cell_indices (m : LibM F) (xmin ymin dx dy : F) (Nx Ny : Int) (x y : F) :
    Except Fault (Int × Int) := do
  let qx ← c_div m (m.rnd (x - xmin)) dx
  let i := c_int qx
  let qy ← c_div m (m.rnd (y - ymin)) dy
  let j := c_int qy
  let i := MIN (Nx - 1) i
  let i := MAX 0 i
  let j := MIN (Ny - 1) j
  let j := MAX 0 j
  pure (i, j)

/-- The burn-in loop of `render_fractal`, `c` iterations left. -/
def burn_in (xnew ynew : F → F → F) : Nat → F × F → F × F
  | 0, p => p
  | c + 1, p => burn_in xnew ynew c (xnew p.1 p.2, ynew p.1 p.2)

/-- The main loop of `render_fractal`, `c` iterations left. -/
def iterate_loop (m : LibM F) (xnew ynew : F → F → F) (xmin ymin dx dy : F) (Nx Ny : Int) :
    Nat → F × F → Grid → Except Fault Grid
  | 0, _, g => .ok g
  | c + 1, p, g => do
    let x1 := xnew p.1 p.2
    let y1 := ynew p.1 p.2
    let ij ← cell_indices m xmin ymin dx dy Nx Ny x1 y1
    let g2 ← sample_incr g ij.2 ij.1
    iterate_loop m xnew ynew xmin ymin dx dy Nx Ny c (x1, y1) g2

/-- The function `render_fractal`; `iter_max` is the number of counted
iterations. -/
def render_fractal (m : LibM F) (xnew ynew : F → F → F) (xmin ymin dx dy : F)
    (Nx Ny iter_max : Int) (sample_data : Grid) : Except Fault Grid :=
  let p := burn_in xnew ynew 50 (m.rnd (1 / 10), m.rnd (1 / 10))
  iterate_loop m xnew ynew xmin ymin dx dy Nx Ny iter_max.toNat p sample_data

end Accumulator

/-- The histogram-max scan of `main` (lines 100-105). -/
def hist_max (array : Grid) : Int :=
  array.foldl (fun m row => row.foldl (fun m2 v => MAX m2 v) m) 0

section ToneMapper

variable {F : Type} [LinearOrderedField F] [FloorRing F]

/-- The body of the tone-mapping loop of `main` (lines 111-115) for one
cell of value `v`. -/
def tone_cell (m : LibM F) (cut expo : F) (max v : Int) : Except Fault Int := do
  let val ← c_div m (m.rnd (cut * (v : F))) (max : F)
  let val := MAX 0 val
  let val := MIN 1 val
  let val ← c_pow m val expo
  pure (c_int (m.rnd (255 * m.rnd (1 - val))))

/-- The tone-mapping pass of `main` (lines 109-117) with the maximum
`max` found before it. -/
def tone_map (m : LibM F) (cut expo : F) (max : Int) (array : Grid) :
    List (List (Except Fault Int)) :=
  array.map (fun row => row.map (tone_cell m cut expo max))

end ToneMapper
section Configuration

variable {F : Type} [LinearOrderedField F] [FloorRing F]

/-- Modelled from the spec: the parameter reader `par.c` is not among the
sources; the spec says it is a key-value source with typed accessors,
where a mandatory accessor fails the process if the key is absent and a
default-valued accessor returns the default. The three fields give the
value stored under a block and a name, command-line overrides applied. -/
structure ParFile (F : Type) where
  ints : String → String → Option Int
  reals : String → String → Option F
  strings : String → String → Option String

/-- Modelled from the spec: mandatory integer accessor. -/
def par_geti (p : ParFile F) (block name : String) : Except Fault Int :=
  match p.ints block name with
  | some v => .ok v
  | none => .error .missing_key

/-- Modelled from the spec: mandatory real accessor. -/
def par_getd (p : ParFile F) (block name : String) : Except Fault F :=
  match p.reals block name with
  | some v => .ok v
  | none => .error .missing_key

/-- Modelled from the spec: real accessor with a default. -/
def par_getd_def (p : ParFile F) (block name : String) (d : F) : F :=
  (p.reals block name).getD d

/-- Modelled from the spec: string accessor with a default. -/
def par_gets_def (p : ParFile F) (block name : String) (d : String) : String :=
  (p.strings block name).getD d

/-- The file-level variables of the program once `process_input` has run. -/
structure Config (F : Type) where
  filename : String
  Nx : Int
  Ny : Int
  iter_max : Int
  center_x : F
  center_y : F
  Lx : F
  Ly : F
  xmin : F
  xmax : F
  ymin : F
  ymax : F
  dx : F
  dy : F
  aa : F
  bb : F
  cc : F
  dd : F
  cut : F
  expo : F
  method : String
  xnew : F → F → F
  ynew : F → F → F

/-- The parameter source holds the mandatory keys with the given values. -/
def Provides (p : ParFile F) (Nx Ny : Int) (npts cx cy Lx a b c d : F) : Prop :=
  p.ints "image" "Nx" = some Nx ∧ p.ints "image" "Ny" = some Ny ∧
  p.reals "image" "npts" = some npts ∧
  p.reals "fractal" "center_x" = some cx ∧ p.reals "fractal" "center_y" = some cy ∧
  p.reals "fractal" "Lx" = some Lx ∧
  p.reals "fractal" "a" = some a ∧ p.reals "fractal" "b" = some b ∧
  p.reals "fractal" "c" = some c ∧ p.reals "fractal" "d" = some d

/-- A parameter source that holds exactly the mandatory keys and, when
`method` is given, the key `fractal/method`. -/
def par_of (Nx Ny : Int) (npts cx cy Lx a b c d : F) (method : Option String) : ParFile F where
  ints := fun block name =>
    if block = "image" ∧ name = "Nx" then some Nx
    else if block = "image" ∧ name = "Ny" then some Ny
    else none
  reals := fun block name =>
    if block = "image" ∧ name = "npts" then some npts
    else if block = "fractal" ∧ name = "center_x" then some cx
    else if block = "fractal" ∧ name = "center_y" then some cy
    else if block = "fractal" ∧ name = "Lx" then some Lx
    else if block = "fractal" ∧ name = "a" then some a
    else if block = "fractal" ∧ name = "b" then some b
    else if block = "fractal" ∧ name = "c" then some c
    else if block = "fractal" ∧ name = "d" then some d
    else none
  strings := fun block name =>
    if block = "fractal" ∧ name = "method" then method else none

/-- The function `xnew_clifford`. -/
def xnew_clifford (m : LibM F) (aa cc : F) (x y : F) : F :=
  m.sin (aa * y) + cc * m.cos (aa * x)

/-- The function `ynew_clifford`. -/
def ynew_clifford (m : LibM F) (bb dd : F) (x y : F) : F :=
  m.sin (bb * x) + dd * m.cos (bb * y)

/-- The function `xnew_peter`. -/
def xnew_peter (m : LibM F) (aa bb : F) (x y : F) : F :=
  m.sin (aa * y) - m.cos (bb * x)

/-- The function `ynew_peter`. -/
def ynew_peter (m : LibM F) (cc dd : F) (x y : F) : F :=
  m.sin (cc * x) - m.cos (dd * y)

/-- The function `xnew_svensson`. -/
def xnew_svensson (m : LibM F) (aa bb dd : F) (x y : F) : F :=
  dd * m.sin (aa * x) - m.sin (bb * y)

/-- The function `ynew_svensson`. -/
def ynew_svensson (m : LibM F) (aa bb cc : F) (x y : F) : F :=
  cc * m.cos (aa * x) + m.cos (bb * y)

/-- The function `process_input`. -/
def process_input (m : LibM F) (p : ParFile F) : Except Fault (Config F) := do
  let filename := par_gets_def p "image" "file" "attractor.ppm"
  let Nx ← par_geti p "image" "Nx"
  let Ny ← par_geti p "image" "Ny"
  let npts ← par_getd p "image" "npts"
  let iter_max := c_int npts
  let center_x ← par_getd p "fractal" "center_x"
  let center_y ← par_getd p "fractal" "center_y"
  let Lx ← par_getd p "fractal" "Lx"
  let Ly ← c_div m (m.rnd (Lx * (Ny : F))) (Nx : F)
  let xmin := m.rnd (center_x - m.rnd (Lx / 2))
  let xmax := m.rnd (center_x + m.rnd (Lx / 2))
  let ymin := m.rnd (center_y - m.rnd (Ly / 2))
  let ymax := m.rnd (center_y + m.rnd (Ly / 2))
  let dx ← c_div m Lx (Nx : F)
  let dy ← c_div m Ly (Ny : F)
  let aa ← par_getd p "fractal" "a"
  let bb ← par_getd p "fractal" "b"
  let cc ← par_getd p "fractal" "c"
  let dd ← par_getd p "fractal" "d"
  let cut := par_getd_def p "image" "cut" 10
  let expo := par_getd_def p "image" "exp" (1 / 2)
  let method := par_gets_def p "fractal" "method" "clifford"
  let fns : (F → F → F) × (F → F → F) :=
    if method = "peter" then
      (xnew_peter m aa bb, ynew_peter m cc dd)
    else if method = "svensson" then
      (xnew_svensson m aa bb dd, ynew_svensson m aa bb cc)
    else
      (xnew_clifford m aa cc, ynew_clifford m bb dd)
  pure ⟨filename, Nx, Ny, iter_max, center_x, center_y, Lx, Ly, xmin, xmax, ymin, ymax,
    dx, dy, aa, bb, cc, dd, cut, expo, method, fns.1, fns.2⟩

/-- The function `main` up to the image written to the file: the
configuration, the density grid left by `render_fractal`, the maximum
found by the scan, and the tone-mapped cells. -/
def main (m : LibM F) (p : ParFile F) :
    Except Fault (Config F × Grid × Int × List (List (Except Fault Int))) := do
  let cfg ← process_input m p
  let array := calloc_2d_array cfg.Ny cfg.Nx
  let array ← render_fractal m cfg.xnew cfg.ynew cfg.xmin cfg.ymin cfg.dx cfg.dy
    cfg.Nx cfg.Ny cfg.iter_max array
  let max := hist_max array
  pure (cfg, array, max, tone_map m cfg.cut cfg.expo max array)

end Configuration

/-! ## Reference definitions, written from the specification -/

section Reference

variable {F : Type} [LinearOrderedField F] [FloorRing F]

/-- The trajectory of the specification: `p_0 = (0.1, 0.1)` (the double
nearest to `0.1`) and `p_(k+1) = (xnew p_k, ynew p_k)`, both components
from the old point. -/
def orbit (m : LibM F) (xnew ynew : F → F → F) : Nat → F × F
  | 0 => (m.rnd (1 / 10), m.rnd (1 / 10))
  | k + 1 =>
    let p := orbit m xnew ynew k
    (xnew p.1 p.2, ynew p.1 p.2)

/-- The clamp of the specification of the floor of a quotient `q` to
`[0, n - 1]`. -/
def clamp_floor (n : Int) (q : F) : Int :=
  max 0 (min (n - 1) (Int.floor q))

/-- The index of the specification: `floor((x - lo) / d)` clamped to
`[0, n - 1]`. -/
def spec_index (lo d : F) (n : Int) (x : F) : Int :=
  clamp_floor n ((x - lo) / d)

/-- The count of the specification for the cell `(j, i)`: the number of
`k` in `51 .. 50 + N` whose point has column `i` and row `j`. -/
def spec_count (m : LibM F) (xnew ynew : F → F → F) (xmin ymin dx dy : F) (Nx Ny : Int)
    (N : Nat) (j i : Nat) : Nat :=
  ((Finset.Icc 51 (50 + N)).filter (fun k =>
    spec_index xmin dx Nx (orbit m xnew ynew k).1 = (i : Int) ∧
    spec_index ymin dy Ny (orbit m xnew ynew k).2 = (j : Int))).card

/-- The quotient `(x - lo) / d` as the program computes it: the
difference rounded, then the quotient rounded. -/
def dquot (m : LibM F) (lo d x : F) : F :=
  m.rnd (m.rnd (x - lo) / d)

/-- The index the program computes along one axis: the cast of the
computed quotient, then `MIN` with `n - 1`, then `MAX` with `0`. -/
def code_index (m : LibM F) (lo d : F) (n : Int) (x : F) : Int :=
  MAX 0 (MIN (n - 1) (c_int (dquot m lo d x)))

/-- The number of `k` in `51 .. 50 + N` for whose point the program
computes column `i` and row `j`. -/
def code_count (m : LibM F) (xnew ynew : F → F → F) (xmin ymin dx dy : F) (Nx Ny : Int)
    (N : Nat) (j i : Nat) : Nat :=
  ((Finset.Icc 51 (50 + N)).filter (fun k =>
    code_index m xmin dx Nx (orbit m xnew ynew k).1 = (i : Int) ∧
    code_index m ymin dy Ny (orbit m xnew ynew k).2 = (j : Int))).card

/-- The clamp of the specification to `[0, 1]`. -/
def clamp01 (x : F) : F :=
  max 0 (min 1 x)

/-- The output intensity of the specification in exact arithmetic:
`255 * (1 - clamp01(cut * v / max) ^ expo)` truncated to an integer. -/
noncomputable def spec_intensity (cut expo : ℝ) (max v : Int) : Int :=
  trunc_toward_zero (255 * (1 - (clamp01 (cut * (v : ℝ) / (max : ℝ))) ^ expo))

/-- The output intensity of the specification in the arithmetic of the
program: the same formula with every operation rounded by `m.rnd` and the
power taken by `m.pow`, truncated to an integer. -/
def rounded_intensity (m : LibM F) (cut expo : F) (max v : Int) : Int :=
  trunc_toward_zero
    (m.rnd (255 * m.rnd (1 - m.pow (clamp01 (m.rnd (m.rnd (cut * (v : F)) / (max : F)))) expo)))

/-- What the bounds of `[0, 255]` need of a floating-point environment:
rounding is monotone on the non-negative numbers and leaves `0`, `1` and
`255` as they are, and the power of a base in `[0, 1]` to an exponent
`≥ 0` lies in `[0, 1]`. -/
def Sound (m : LibM F) : Prop :=
  (∀ x y, 0 ≤ x → x ≤ y → m.rnd x ≤ m.rnd y) ∧ m.rnd 0 = 0 ∧ m.rnd 1 = 1 ∧
  m.rnd 255 = 255 ∧
  ∀ x e, 0 ≤ x → x ≤ 1 → 0 ≤ e → 0 ≤ m.pow x e ∧ m.pow x e ≤ 1

end Reference

end StrangeAttractor

set_option linter.unusedSectionVars false

/-! ## Rounding to binary64 -/

namespace StrangeAttractor

section Rounding

variable {F : Type} [LinearOrderedField F] [FloorRing F]

theorem round_even_eq (q : F) (n : Int) (h1 : (n : F) - 1 / 2 < q) (h2 : q < (n : F) + 1 / 2) :
    round_even q = n := by
  unfold round_even
  by_cases hq : (n : F) ≤ q
  · have hf : Int.floor q = n := by
      rw [Int.floor_eq_iff]
      exact ⟨hq, by linarith⟩
    rw [hf, if_pos (by linarith)]
  · have hq2 : q < (n : F) := lt_of_not_ge hq
    have hf : Int.floor q = n - 1 := by
      rw [Int.floor_eq_iff]
      push_cast
      exact ⟨by linarith, by linarith⟩
    rw [hf, if_neg (by push_cast; linarith), if_pos (by push_cast; linarith)]
    omega

theorem log_two_eq (x : F) (k : Int) (h1 : (2 : F) ^ k ≤ x) (h2 : x < (2 : F) ^ (k + 1)) :
    Int.log 2 x = k := by
  have hx : 0 < x := lt_of_lt_of_le (zpow_pos (by norm_num) k) h1
  have ha : k ≤ Int.log 2 x := (Int.zpow_le_iff_le_log (by norm_num) hx).1 (by exact_mod_cast h1)
  have hb : Int.log 2 x < k + 1 :=
    (Int.lt_zpow_iff_log_lt (by norm_num) hx).1 (by exact_mod_cast h2)
  omega

theorem fl64_eval (x : F) (k n : Int) (h1 : (2 : F) ^ k ≤ |x|) (h2 : |x| < (2 : F) ^ (k + 1))
    (h3 : (n : F) - 1 / 2 < x / (2 : F) ^ (k - 52))
    (h4 : x / (2 : F) ^ (k - 52) < (n : F) + 1 / 2) :
    fl64 x = (n : F) * (2 : F) ^ (k - 52) := by
  have hx : x ≠ 0 := by
    intro h
    rw [h, abs_zero] at h1
    exact absurd h1 (not_le.2 (zpow_pos (by norm_num) k))
  unfold fl64
  rw [if_neg hx, log_two_eq |x| k h1 h2, round_even_eq _ n h3 h4]

theorem fl64_zero : fl64 (0 : F) = 0 := by
  simp [fl64]

end Rounding

theorem fl64_val (x v : ℝ) (k n : Int) (h1 : (2 : ℝ) ^ k ≤ |x|) (h2 : |x| < (2 : ℝ) ^ (k + 1))
    (h3 : (n : ℝ) - 1 / 2 < x / (2 : ℝ) ^ (k - 52))
    (h4 : x / (2 : ℝ) ^ (k - 52) < (n : ℝ) + 1 / 2)
    (hv : (n : ℝ) * (2 : ℝ) ^ (k - 52) = v) : fl64 x = v := by
  rw [fl64_eval x k n h1 h2 h3 h4, hv]

theorem fl64_two_pow_32 : fl64 (4294967296 : ℝ) = 4294967296 :=
  fl64_val 4294967296 4294967296 32 4503599627370496 (by norm_num [abs_of_pos])
    (by norm_num [abs_of_pos]) (by norm_num) (by norm_num) (by norm_num)

theorem fl64_one : fl64 (1 : ℝ) = 1 :=
  fl64_val 1 1 0 4503599627370496 (by norm_num) (by norm_num) (by norm_num) (by norm_num)
    (by norm_num)

theorem fl64_four : fl64 (4 : ℝ) = 4 :=
  fl64_val 4 4 2 4503599627370496 (by norm_num [abs_of_pos]) (by norm_num [abs_of_pos])
    (by norm_num) (by norm_num) (by norm_num)

theorem fl64_four_fifths :
    fl64 ((4 : ℝ) / 5) = 3602879701896397 / 4503599627370496 :=
  fl64_val (4 / 5) _ (-1) 7205759403792794 (by norm_num [abs_of_pos])
    (by norm_num [abs_of_pos]) (by norm_num) (by norm_num) (by norm_num)

theorem fl64_four_fifths_fixed :
    fl64 ((3602879701896397 : ℝ) / 4503599627370496) = 3602879701896397 / 4503599627370496 :=
  fl64_val _ _ (-1) 7205759403792794 (by norm_num [abs_of_pos])
    (by norm_num [abs_of_pos]) (by norm_num) (by norm_num) (by norm_num)

theorem fl64_one_fifth_below :
    fl64 ((900719925474099 : ℝ) / 4503599627370496) = 900719925474099 / 4503599627370496 :=
  fl64_val _ _ (-3) 7205759403792792 (by norm_num [abs_of_pos])
    (by norm_num [abs_of_pos]) (by norm_num) (by norm_num) (by norm_num)

theorem fl64_fifty_one_below :
    fl64 ((229683580995895245 : ℝ) / 4503599627370496) = 3588805953060863 / 70368744177664 :=
  fl64_val _ _ 5 7177611906121726 (by norm_num [abs_of_pos])
    (by norm_num [abs_of_pos]) (by norm_num) (by norm_num) (by norm_num)

theorem fl64_intCast (n : Int) (hb : |n| < 9007199254740992) : fl64 (n : ℝ) = n := by
  by_cases hn : n = 0
  · rw [hn]
    simp [fl64_zero]
  have hx : (n : ℝ) ≠ 0 := by exact_mod_cast hn
  have hpos : (0 : ℝ) < |(n : ℝ)| := abs_pos.2 hx
  have h1 : (1 : ℝ) ≤ |(n : ℝ)| := by
    have : (1 : Int) ≤ |n| := Int.one_le_abs hn
    exact_mod_cast this
  have h2 : |(n : ℝ)| < 9007199254740992 := by exact_mod_cast hb
  have hk0 : 0 ≤ Int.log 2 |(n : ℝ)| :=
    (Int.zpow_le_iff_le_log (by norm_num) hpos).1 (by simpa using h1)
  have hk1 : Int.log 2 |(n : ℝ)| < 53 :=
    (Int.lt_zpow_iff_log_lt (by norm_num) hpos).1 (by norm_num; exact h2)
  obtain ⟨j, hj⟩ : ∃ j : Nat, Int.log 2 |(n : ℝ)| - 52 = -(j : Int) :=
    ⟨(52 - Int.log 2 |(n : ℝ)|).toNat, by omega⟩
  unfold fl64
  rw [if_neg hx, hj]
  have hq : (n : ℝ) / (2 : ℝ) ^ (-(j : Int)) = ((n * 2 ^ j : Int) : ℝ) := by
    rw [zpow_neg, zpow_natCast, div_inv_eq_mul]
    push_cast
    ring
  rw [hq, round_even_eq _ (n * 2 ^ j) (by linarith) (by linarith), zpow_neg, zpow_natCast]
  push_cast
  field_simp

theorem fl64_three_below :
    fl64 ((9007199254740991 : ℝ) / 9007199254740992 - (-2)) = 3 :=
  fl64_val _ _ 1 6755399441055744 (by norm_num [abs_of_pos])
    (by norm_num [abs_of_pos]) (by norm_num) (by norm_num) (by norm_num)

theorem fl64_two : fl64 (2 : ℝ) = 2 := by
  have := fl64_intCast 2 (by decide)
  simpa using this

theorem fl64_three : fl64 (3 : ℝ) = 3 := by
  have := fl64_intCast 3 (by decide)
  simpa using this

end StrangeAttractor

namespace StrangeAttractor

section RoundingOrder

theorem round_even_bounds (q : ℝ) :
    Int.floor q ≤ round_even q ∧ round_even q ≤ Int.floor q + 1 := by
  unfold round_even
  split_ifs <;> omega

theorem round_even_mono (q1 q2 : ℝ) (h : q1 ≤ q2) : round_even q1 ≤ round_even q2 := by
  have hf : Int.floor q1 ≤ Int.floor q2 := Int.floor_mono h
  by_cases hlt : Int.floor q1 < Int.floor q2
  · have h1 := (round_even_bounds q1).2
    have h2 := (round_even_bounds q2).1
    omega
  · have he : Int.floor q1 = Int.floor q2 := by omega
    unfold round_even
    rw [he]
    split_ifs <;> first | omega | linarith

theorem fl64_pos_bounds (x : ℝ) (hx : 0 < x) :
    (2 : ℝ) ^ Int.log 2 x ≤ fl64 x ∧ fl64 x ≤ (2 : ℝ) ^ (Int.log 2 x + 1) := by
  have hlo : (2 : ℝ) ^ Int.log 2 x ≤ x := by
    have := Int.zpow_log_le_self (b := 2) (by norm_num) hx
    exact_mod_cast this
  have hhi : x < (2 : ℝ) ^ (Int.log 2 x + 1) := by
    have := Int.lt_zpow_succ_log_self (b := 2) (by norm_num) x
    exact_mod_cast this
  have hpe : (0 : ℝ) < (2 : ℝ) ^ (Int.log 2 x - 52) := zpow_pos (by norm_num) _
  have e1 : (2 : ℝ) ^ Int.log 2 x = 4503599627370496 * (2 : ℝ) ^ (Int.log 2 x - 52) := by
    rw [zpow_sub₀ (by norm_num)]
    norm_num
    field_simp
  have e2 : (2 : ℝ) ^ (Int.log 2 x + 1)
      = 9007199254740992 * (2 : ℝ) ^ (Int.log 2 x - 52) := by
    rw [zpow_add₀ (by norm_num), zpow_sub₀ (by norm_num)]
    norm_num
    field_simp
    ring
  have hq1 : ((4503599627370496 : Int) : ℝ) ≤ x / (2 : ℝ) ^ (Int.log 2 x - 52) := by
    rw [le_div_iff₀ hpe]
    push_cast
    linarith
  have hq2 : x / (2 : ℝ) ^ (Int.log 2 x - 52) < ((9007199254740992 : Int) : ℝ) := by
    rw [div_lt_iff₀ hpe]
    push_cast
    linarith
  have hf1 : (4503599627370496 : Int) ≤ Int.floor (x / (2 : ℝ) ^ (Int.log 2 x - 52)) :=
    Int.le_floor.2 hq1
  have hf2 : Int.floor (x / (2 : ℝ) ^ (Int.log 2 x - 52)) < (9007199254740992 : Int) :=
    Int.floor_lt.2 hq2
  obtain ⟨hb1, hb2⟩ := round_even_bounds (x / (2 : ℝ) ^ (Int.log 2 x - 52))
  have hr1 : (4503599627370496 : ℝ)
      ≤ (round_even (x / (2 : ℝ) ^ (Int.log 2 x - 52)) : ℝ) := by
    have : (4503599627370496 : Int) ≤ round_even (x / (2 : ℝ) ^ (Int.log 2 x - 52)) := by omega
    exact_mod_cast this
  have hr2 : (round_even (x / (2 : ℝ) ^ (Int.log 2 x - 52)) : ℝ)
      ≤ (9007199254740992 : ℝ) := by
    have : round_even (x / (2 : ℝ) ^ (Int.log 2 x - 52)) ≤ (9007199254740992 : Int) := by omega
    exact_mod_cast this
  unfold fl64
  rw [if_neg hx.ne.symm, abs_of_pos hx, e1, e2]
  exact ⟨mul_le_mul_of_nonneg_right hr1 hpe.le, mul_le_mul_of_nonneg_right hr2 hpe.le⟩

theorem fl64_mono_pos (x y : ℝ) (hx : 0 < x) (h : x ≤ y) : fl64 x ≤ fl64 y := by
  have hy : 0 < y := lt_of_lt_of_le hx h
  have hk : Int.log 2 x ≤ Int.log 2 y := Int.log_mono_right hx h
  by_cases he : Int.log 2 x = Int.log 2 y
  · unfold fl64
    rw [if_neg hx.ne.symm, if_neg hy.ne.symm, abs_of_pos hx, abs_of_pos hy, he]
    have hpe : (0 : ℝ) < (2 : ℝ) ^ (Int.log 2 y - 52) := zpow_pos (by norm_num) _
    have hq : x / (2 : ℝ) ^ (Int.log 2 y - 52) ≤ y / (2 : ℝ) ^ (Int.log 2 y - 52) :=
      div_le_div_of_nonneg_right h hpe.le
    have := round_even_mono _ _ hq
    exact mul_le_mul_of_nonneg_right (by exact_mod_cast this) hpe.le
  · have hlt : Int.log 2 x + 1 ≤ Int.log 2 y := by omega
    have h1 := (fl64_pos_bounds x hx).2
    have h2 := (fl64_pos_bounds y hy).1
    have h3 : (2 : ℝ) ^ (Int.log 2 x + 1) ≤ (2 : ℝ) ^ Int.log 2 y :=
      zpow_le_zpow_right₀ (by norm_num) hlt
    linarith

theorem fl64_mono_nonneg (x y : ℝ) (hx : 0 ≤ x) (h : x ≤ y) : fl64 x ≤ fl64 y := by
  rcases hx.eq_or_lt with h0 | h0
  · rw [← h0, fl64_zero]
    rcases (le_trans hx h).eq_or_lt with hy | hy
    · rw [← hy, fl64_zero]
    · exact le_trans (zpow_pos (by norm_num) _).le (fl64_pos_bounds y hy).1
  · exact fl64_mono_pos x y h0 h

theorem dblLibM_sound : Sound dblLibM := by
  refine ⟨fl64_mono_nonneg, fl64_zero, fl64_one, ?_, ?_⟩
  · have := fl64_intCast 255 (by decide)
    simpa [dblLibM] using this
  · intro x e h0 h1 he
    have hp0 : 0 ≤ x ^ e := Real.rpow_nonneg h0 e
    have hp1 : x ^ e ≤ 1 := Real.rpow_le_one h0 h1 he
    constructor
    · have := fl64_mono_nonneg 0 (x ^ e) le_rfl hp0
      rwa [fl64_zero] at this
    · have := fl64_mono_nonneg (x ^ e) 1 hp0 hp1
      rwa [fl64_one] at this

end RoundingOrder

end StrangeAttractor

/-! ## The density grid -/

namespace StrangeAttractor

theorem wrap32_of_range (z : Int) (h1 : -2147483648 ≤ z) (h2 : z < 2147483648) :
    wrap32 z = z := by
  unfold wrap32
  omega

theorem row_incr_spec (B : Int) (hB : B < 2147483647) :
    ∀ (r : List Int) (i : Nat), i < r.length → (∀ v ∈ r, 0 ≤ v ∧ v ≤ B) →
      ∃ r2, row_incr r i = .ok r2 ∧ r2.length = r.length ∧ r2.sum = r.sum + 1 ∧
        (∀ v ∈ r2, 0 ≤ v ∧ v ≤ B + 1) ∧
        ∀ k, r2.getD k 0 = r.getD k 0 + if k = i then 1 else 0 := by
  intro r
  induction r with
  | nil => intro i hi; simp at hi
  | cons v vs ih =>
    intro i hi hb
    have hv := hb v (by simp)
    have hvs : ∀ w ∈ vs, 0 ≤ w ∧ w ≤ B := fun w hw => hb w (by simp [hw])
    cases i with
    | zero =>
      refine ⟨wrap32 (v + 1) :: vs, rfl, by simp, ?_, ?_, ?_⟩
      · rw [wrap32_of_range _ (by omega) (by omega)]
        simp only [List.sum_cons]
        omega
      · rw [wrap32_of_range _ (by omega) (by omega)]
        intro w hw
        rcases List.mem_cons.1 hw with h | h
        · subst h; omega
        · have := hvs w h; omega
      · rw [wrap32_of_range _ (by omega) (by omega)]
        intro k
        cases k with
        | zero => simp
        | succ k => simp
    | succ i =>
      have hi2 : i < vs.length := by simpa using hi
      obtain ⟨r2, h1, h2, h3, h4, h5⟩ := ih i hi2 hvs
      refine ⟨v :: r2, ?_, by simp [h2], ?_, ?_, ?_⟩
      · simp [row_incr, h1, Except.map]
      · simp only [List.sum_cons, h3]
        omega
      · intro w hw
        rcases List.mem_cons.1 hw with h | h
        · subst h; omega
        · exact h4 w h
      · intro k
        cases k with
        | zero => simp
        | succ k => simpa using h5 k

theorem grid_sum_cons (r : List Int) (g : Grid) :
    grid_sum (r :: g) = r.sum + grid_sum g := by
  simp [grid_sum]

theorem cell_cons_zero (r : List Int) (g : Grid) (b : Nat) :
    cell (r :: g) 0 b = r.getD b 0 := by
  simp [cell]

theorem cell_cons_succ (r : List Int) (g : Grid) (a b : Nat) :
    cell (r :: g) (a + 1) b = cell g a b := by
  simp [cell]

theorem grid_incr_spec (B : Int) (hB : B < 2147483647) (Nx : Nat) :
    ∀ (g : Grid) (Ny j i : Nat), j < Ny → i < Nx → Shape g Ny Nx → Bounded g B →
      ∃ g2, grid_incr g j i = .ok g2 ∧ Shape g2 Ny Nx ∧ grid_sum g2 = grid_sum g + 1 ∧
        Bounded g2 (B + 1) ∧
        ∀ a b, cell g2 a b = cell g a b + if a = j ∧ b = i then 1 else 0 := by
  intro g
  induction g with
  | nil =>
    intro Ny j i hj _ hs _
    have := hs.1
    simp at this
    omega
  | cons r rs ih =>
    intro Ny j i hj hi hs hb
    have hr : r.length = Nx := hs.2 r (by simp)
    have hrb : ∀ v ∈ r, 0 ≤ v ∧ v ≤ B := hb r (by simp)
    have hrs : Shape rs (Ny - 1) Nx := by
      refine ⟨?_, fun q hq => hs.2 q (by simp [hq])⟩
      have := hs.1
      simp at this
      omega
    have hrsb : Bounded rs B := fun q hq => hb q (by simp [hq])
    have hlen : rs.length + 1 = Ny := by simpa using hs.1
    cases j with
    | zero =>
      obtain ⟨r2, h1, h2, h3, h4, h5⟩ := row_incr_spec B hB r i (by omega) hrb
      refine ⟨r2 :: rs, ?_, ?_, ?_, ?_, ?_⟩
      · simp [grid_incr, h1, Except.map]
      · refine ⟨by simpa using hlen, ?_⟩
        intro q hq
        rcases List.mem_cons.1 hq with h | h
        · subst h; omega
        · exact hs.2 q (by simp [h])
      · simp only [grid_sum_cons, h3]
        omega
      · intro q hq
        rcases List.mem_cons.1 hq with h | h
        · subst h; exact h4
        · intro v hv
          have := hrsb q h v hv
          omega
      · intro a b
        cases a with
        | zero => rw [cell_cons_zero, cell_cons_zero]; simpa using h5 b
        | succ a => simp [cell_cons_succ]
    | succ j =>
      obtain ⟨g2, h1, h2, h3, h4, h5⟩ := ih (Ny - 1) j i (by omega) hi hrs hrsb
      refine ⟨r :: g2, ?_, ?_, ?_, ?_, ?_⟩
      · simp [grid_incr, h1, Except.map]
      · refine ⟨?_, ?_⟩
        · have := h2.1
          simp only [List.length_cons]
          omega
        · intro q hq
          rcases List.mem_cons.1 hq with h | h
          · subst h; exact hr
          · exact h2.2 q h
      · simp only [grid_sum_cons, h3]
        omega
      · intro q hq
        rcases List.mem_cons.1 hq with h | h
        · subst h
          intro v hv
          have := hrb v hv
          omega
        · exact h4 q h
      · intro a b
        cases a with
        | zero => simp [cell_cons_zero]
        | succ a => simpa [cell_cons_succ] using h5 a b

end StrangeAttractor

/-! ## The accumulator -/

namespace StrangeAttractor

section AccumulatorProofs

variable {F : Type} [LinearOrderedField F] [FloorRing F]

theorem clamp_range (n t : Int) (hn : 1 ≤ n) :
    0 ≤ MAX 0 (MIN (n - 1) t) ∧ MAX 0 (MIN (n - 1) t) ≤ n - 1 := by
  unfold MAX MIN
  split_ifs <;> omega

theorem trunc_of_nonneg (q : F) (hq : 0 ≤ q) : trunc_toward_zero q = Int.floor q := by
  unfold trunc_toward_zero
  rw [if_neg (not_lt.2 hq)]

theorem trunc_of_neg (q : F) (hq : q < 0) : trunc_toward_zero q = Int.ceil q := by
  unfold trunc_toward_zero
  rw [if_pos hq, Int.floor_neg, neg_neg]

theorem clamp_cast_eq_floor (n : Int) (hn : 1 ≤ n) (q : F) (hq : q < 2147483648) :
    MAX 0 (MIN (n - 1) (c_int q)) = clamp_floor n q := by
  unfold c_int clamp_floor
  by_cases h0 : 0 ≤ q
  · have hf : Int.floor q < 2147483648 := Int.floor_lt.2 (by exact_mod_cast hq)
    have hf0 : 0 ≤ Int.floor q := Int.floor_nonneg.2 h0
    rw [trunc_of_nonneg q h0, if_pos ⟨by omega, by omega⟩]
    unfold MAX MIN
    split_ifs <;> omega
  · have hq2 : q < 0 := lt_of_not_ge h0
    have h1 : Int.ceil q ≤ 0 := Int.ceil_le.2 (by simpa using hq2.le)
    have h2 : Int.floor q < 0 := Int.floor_lt.2 (by simpa using hq2)
    rw [trunc_of_neg q hq2]
    unfold MAX MIN
    split_ifs <;> omega

theorem cell_indices_ok (m : LibM F) (xmin ymin dx dy : F) (Nx Ny : Int) (x y : F)
    (hdx : dx ≠ 0) (hdy : dy ≠ 0) :
    cell_indices m xmin ymin dx dy Nx Ny x y =
      .ok (code_index m xmin dx Nx x, code_index m ymin dy Ny y) := by
  simp [cell_indices, c_div, hdx, hdy, bind, Except.bind, pure, Except.pure, code_index, dquot]

theorem code_index_range (m : LibM F) (lo d : F) (n : Int) (x : F) (hn : 1 ≤ n) :
    0 ≤ code_index m lo d n x ∧ code_index m lo d n x ≤ n - 1 :=
  clamp_range n _ hn

theorem card_filter_range_succ (P : Nat → Prop) [DecidablePred P] (n : Nat) :
    ((Finset.range (n + 1)).filter P).card =
      (if P 0 then 1 else 0) + ((Finset.range n).filter (fun k => P (k + 1))).card := by
  simp only [Finset.card_filter]
  rw [Finset.sum_range_succ']
  omega

theorem burn_in_orbit (m : LibM F) (xnew ynew : F → F → F) (k : Nat) :
    ∀ n, burn_in xnew ynew k (orbit m xnew ynew n) = orbit m xnew ynew (n + k) := by
  induction k with
  | zero => intro n; rfl
  | succ k ih =>
    intro n
    have h := ih (n + 1)
    rw [show n + (k + 1) = n + 1 + k by omega, ← h]
    rfl

theorem iterate_loop_spec (m : LibM F) (xnew ynew : F → F → F) (xmin ymin dx dy : F)
    (Nx Ny : Int) (hdx : dx ≠ 0) (hdy : dy ≠ 0) (hNx : 1 ≤ Nx) (hNy : 1 ≤ Ny) (n : Nat) :
    ∀ (p : F × F) (g : Grid) (B : Int), Shape g Ny.toNat Nx.toNat → Bounded g B →
      B + n < 2147483648 →
      ∃ g2, iterate_loop m xnew ynew xmin ymin dx dy Nx Ny n p g = .ok g2 ∧
        Shape g2 Ny.toNat Nx.toNat ∧ Bounded g2 (B + n) ∧
        grid_sum g2 = grid_sum g + n ∧
        ∀ a b : Nat, cell g2 a b = cell g a b +
          (((Finset.range n).filter (fun k =>
            code_index m xmin dx Nx (burn_in xnew ynew (k + 1) p).1 = (b : Int) ∧
            code_index m ymin dy Ny (burn_in xnew ynew (k + 1) p).2 = (a : Int))).card : Int) := by
  induction n with
  | zero =>
    intro p g B hs hb _
    exact ⟨g, rfl, hs, by simpa using hb, by simp, by simp⟩
  | succ n ih =>
    intro p g B hs hb hB
    obtain ⟨hi0, hi1⟩ := code_index_range m xmin dx Nx (xnew p.1 p.2) hNx
    obtain ⟨hj0, hj1⟩ := code_index_range m ymin dy Ny (ynew p.1 p.2) hNy
    have hB2 : B < 2147483647 := by push_cast at hB; omega
    obtain ⟨g1, e1, s1, sum1, b1, c1⟩ := grid_incr_spec B hB2 Nx.toNat g Ny.toNat
      (code_index m ymin dy Ny (ynew p.1 p.2)).toNat
      (code_index m xmin dx Nx (xnew p.1 p.2)).toNat (by omega) (by omega) hs hb
    obtain ⟨g2, e2, s2, b2, sum2, c2⟩ := ih (xnew p.1 p.2, ynew p.1 p.2) g1 (B + 1) s1 b1
      (by push_cast at hB; omega)
    refine ⟨g2, ?_, s2, ?_, ?_, ?_⟩
    · have hinc : sample_incr g (code_index m ymin dy Ny (ynew p.1 p.2))
          (code_index m xmin dx Nx (xnew p.1 p.2)) = .ok g1 := by
        unfold sample_incr
        rw [if_neg (by omega)]
        exact e1
      simp only [iterate_loop, cell_indices_ok _ _ _ _ _ _ _ _ _ hdx hdy, bind,
        Except.bind, hinc]
      exact e2
    · have : B + 1 + (n : Int) = B + ((n + 1 : Nat) : Int) := by push_cast; ring
      rw [← this]; exact b2
    · rw [sum2, sum1]; push_cast; ring
    · intro a b
      rw [c2 a b, c1 a b, card_filter_range_succ]
      have hiff : (a = (code_index m ymin dy Ny (ynew p.1 p.2)).toNat ∧
          b = (code_index m xmin dx Nx (xnew p.1 p.2)).toNat) ↔
          (code_index m xmin dx Nx (burn_in xnew ynew (0 + 1) p).1 = (b : Int) ∧
            code_index m ymin dy Ny (burn_in xnew ynew (0 + 1) p).2 = (a : Int)) := by
        show _ ↔ (code_index m xmin dx Nx (xnew p.1 p.2) = (b : Int) ∧
            code_index m ymin dy Ny (ynew p.1 p.2) = (a : Int))
        constructor
        · rintro ⟨h1, h2⟩; constructor <;> omega
        · rintro ⟨h1, h2⟩; constructor <;> omega
      have hshift : ∀ k, burn_in xnew ynew (k + 1) (xnew p.1 p.2, ynew p.1 p.2) =
          burn_in xnew ynew (k + 1 + 1) p := fun k => rfl
      simp only [hshift]
      by_cases hc : (a = (code_index m ymin dy Ny (ynew p.1 p.2)).toNat ∧
          b = (code_index m xmin dx Nx (xnew p.1 p.2)).toNat)
      · rw [if_pos hc, if_pos (hiff.1 hc)]; push_cast; ring
      · rw [if_neg hc, if_neg (fun h => hc (hiff.2 h))]; push_cast; ring

theorem calloc_shape (Ny Nx : Int) : Shape (calloc_2d_array Ny Nx) Ny.toNat Nx.toNat := by
  refine ⟨by simp [calloc_2d_array], ?_⟩
  intro r hr
  rw [calloc_2d_array, List.mem_replicate] at hr
  rw [hr.2]; simp

theorem calloc_bounded (Ny Nx : Int) : Bounded (calloc_2d_array Ny Nx) 0 := by
  intro r hr v hv
  rw [calloc_2d_array, List.mem_replicate] at hr
  rw [hr.2, List.mem_replicate] at hv
  simp [hv.2]

theorem calloc_sum (Ny Nx : Int) : grid_sum (calloc_2d_array Ny Nx) = 0 := by
  simp [grid_sum, calloc_2d_array]

theorem calloc_cell (Ny Nx : Int) (a b : Nat) : cell (calloc_2d_array Ny Nx) a b = 0 := by
  simp only [cell, calloc_2d_array, List.getD_eq_getElem?_getD, List.getElem?_replicate]
  by_cases ha : a < Ny.toNat
  · by_cases hb : b < Nx.toNat <;> simp [ha, hb, List.getElem?_replicate]
  · simp [ha]

end AccumulatorProofs

end StrangeAttractor

/-! ## The whole of `render_fractal` and the histogram maximum -/

namespace StrangeAttractor

section RenderProofs

variable {F : Type} [LinearOrderedField F] [FloorRing F]

theorem card_filter_shift (Q : Nat → Prop) [DecidablePred Q] (n : Nat) :
    ((Finset.range n).filter (fun k => Q (50 + (k + 1)))).card =
      ((Finset.Icc 51 (50 + n)).filter Q).card := by
  refine Finset.card_bij (fun k _ => 50 + (k + 1)) ?_ ?_ ?_
  · intro k hk
    simp only [Finset.mem_filter, Finset.mem_range, Finset.mem_Icc] at hk ⊢
    exact ⟨⟨by omega, by omega⟩, hk.2⟩
  · intro a _ b _ h
    simp only at h
    omega
  · intro b hb
    simp only [Finset.mem_filter, Finset.mem_range, Finset.mem_Icc] at hb ⊢
    refine ⟨b - 51, ⟨by omega, ?_⟩, by omega⟩
    rw [show 50 + (b - 51 + 1) = b by omega]
    exact hb.2

theorem render_fractal_spec (m : LibM F) (xnew ynew : F → F → F) (xmin ymin dx dy : F)
    (Nx Ny N : Int) (hdx : dx ≠ 0) (hdy : dy ≠ 0) (hNx : 1 ≤ Nx) (hNy : 1 ≤ Ny)
    (hint : N < 2147483648) :
    ∃ g, render_fractal m xnew ynew xmin ymin dx dy Nx Ny N (calloc_2d_array Ny Nx) = .ok g ∧
      Shape g Ny.toNat Nx.toNat ∧ Bounded g N.toNat ∧ grid_sum g = N.toNat ∧
      ∀ a b : Nat, cell g a b = code_count m xnew ynew xmin ymin dx dy Nx Ny N.toNat a b := by
  obtain ⟨g, e, s, bd, sm, c⟩ := iterate_loop_spec m xnew ynew xmin ymin dx dy Nx Ny hdx hdy
    hNx hNy N.toNat (burn_in xnew ynew 50 (m.rnd (1 / 10), m.rnd (1 / 10)))
    (calloc_2d_array Ny Nx) 0 (calloc_shape Ny Nx) (calloc_bounded Ny Nx) (by omega)
  refine ⟨g, e, s, by simpa using bd, by simpa [calloc_sum] using sm, ?_⟩
  intro a b
  rw [c a b, calloc_cell, zero_add]
  have h50 : burn_in xnew ynew 50 (m.rnd (1 / 10), m.rnd (1 / 10)) = orbit m xnew ynew 50 := by
    have := burn_in_orbit m xnew ynew 50 0
    simpa [orbit] using this
  have hk : ∀ k, burn_in xnew ynew (k + 1)
      (burn_in xnew ynew 50 (m.rnd (1 / 10), m.rnd (1 / 10))) =
      orbit m xnew ynew (50 + (k + 1)) := by
    intro k
    rw [h50, burn_in_orbit]
  simp only [hk]
  unfold code_count
  exact congrArg Nat.cast (card_filter_shift (fun k =>
    code_index m xmin dx Nx (orbit m xnew ynew k).1 = (b : Int) ∧
    code_index m ymin dy Ny (orbit m xnew ynew k).2 = (a : Int)) N.toNat)

theorem row_scan_ge (r : List Int) : ∀ m : Int,
    m ≤ r.foldl (fun m2 v => MAX m2 v) m ∧ ∀ v ∈ r, v ≤ r.foldl (fun m2 v => MAX m2 v) m := by
  induction r with
  | nil => intro m; simp
  | cons w ws ih =>
    intro m
    obtain ⟨h1, h2⟩ := ih (MAX m w)
    have hm : m ≤ MAX m w ∧ w ≤ MAX m w := by unfold MAX; split_ifs <;> omega
    simp only [List.foldl_cons]
    refine ⟨by omega, ?_⟩
    intro v hv
    rcases List.mem_cons.1 hv with h | h
    · subst h; omega
    · exact h2 v h

theorem row_scan_mem (r : List Int) : ∀ m : Int,
    r.foldl (fun m2 v => MAX m2 v) m = m ∨ r.foldl (fun m2 v => MAX m2 v) m ∈ r := by
  induction r with
  | nil => intro m; simp
  | cons w ws ih =>
    intro m
    simp only [List.foldl_cons]
    have hm : MAX m w = m ∨ MAX m w = w := by unfold MAX; split_ifs <;> simp
    rcases ih (MAX m w) with h | h
    · rcases hm with h2 | h2
      · left; rw [h, h2]
      · right; rw [h, h2]; simp
    · right; exact List.mem_cons_of_mem _ h

theorem grid_scan_ge (g : Grid) : ∀ m : Int,
    m ≤ g.foldl (fun m row => row.foldl (fun m2 v => MAX m2 v) m) m ∧
      ∀ r ∈ g, ∀ v ∈ r, v ≤ g.foldl (fun m row => row.foldl (fun m2 v => MAX m2 v) m) m := by
  induction g with
  | nil => intro m; simp
  | cons q qs ih =>
    intro m
    obtain ⟨h1, h2⟩ := ih (q.foldl (fun m2 v => MAX m2 v) m)
    obtain ⟨h3, h4⟩ := row_scan_ge q m
    simp only [List.foldl_cons]
    refine ⟨by omega, ?_⟩
    intro r hr v hv
    rcases List.mem_cons.1 hr with h | h
    · subst h
      have := h4 v hv
      omega
    · exact h2 r h v hv

theorem grid_scan_mem (g : Grid) : ∀ m : Int,
    g.foldl (fun m row => row.foldl (fun m2 v => MAX m2 v) m) m = m ∨
      ∃ r ∈ g, g.foldl (fun m row => row.foldl (fun m2 v => MAX m2 v) m) m ∈ r := by
  induction g with
  | nil => intro m; simp
  | cons q qs ih =>
    intro m
    simp only [List.foldl_cons]
    rcases ih (q.foldl (fun m2 v => MAX m2 v) m) with h | ⟨r, hr, h⟩
    · rcases row_scan_mem q m with h2 | h2
      · left; rw [h, h2]
      · right; exact ⟨q, by simp, by rw [h]; exact h2⟩
    · right; exact ⟨r, List.mem_cons_of_mem _ hr, h⟩

theorem hist_max_ge (g : Grid) : 0 ≤ hist_max g ∧ ∀ r ∈ g, ∀ v ∈ r, v ≤ hist_max g :=
  grid_scan_ge g 0

theorem hist_max_mem (g : Grid) : hist_max g = 0 ∨ ∃ r ∈ g, hist_max g ∈ r :=
  grid_scan_mem g 0

theorem row_sum_nonpos (r : List Int) (h : ∀ v ∈ r, v ≤ 0) : r.sum ≤ 0 := by
  induction r with
  | nil => simp
  | cons w ws ih =>
    have h1 := h w (by simp)
    have h2 := ih (fun v hv => h v (by simp [hv]))
    simp only [List.sum_cons]
    omega

theorem grid_sum_nonpos (g : Grid) (h : ∀ r ∈ g, ∀ v ∈ r, v ≤ 0) : grid_sum g ≤ 0 := by
  induction g with
  | nil => simp [grid_sum]
  | cons q qs ih =>
    have h1 := row_sum_nonpos q (h q (by simp))
    have h2 := ih (fun r hr => h r (by simp [hr]))
    rw [grid_sum_cons]
    omega

end RenderProofs

end StrangeAttractor

/-! ## The tone mapper -/

namespace StrangeAttractor

section ToneProofs

variable {F : Type} [LinearOrderedField F] [FloorRing F]

theorem pixel_map {α β : Type} (f : α → β) (img : List (List α)) (j i : Nat) :
    pixel (img.map (fun r => r.map f)) j i = (pixel img j i).map f := by
  unfold pixel
  rw [List.get?_eq_getElem?, List.get?_eq_getElem?, List.getElem?_map]
  cases img[j]? with
  | none => rfl
  | some r => simp [List.get?_eq_getElem?]

theorem MIN_MAX_eq_clamp01 (x : F) : MIN 1 (MAX 0 x) = clamp01 x := by
  unfold MIN MAX clamp01
  by_cases h0 : (0 : F) > x
  · rw [if_pos h0, if_neg (by norm_num)]
    rw [min_eq_right (by linarith), max_eq_left (by linarith)]
  · rw [if_neg h0]
    by_cases h1 : (1 : F) < x
    · rw [if_pos h1, min_eq_left h1.le, max_eq_right (by norm_num)]
    · rw [if_neg h1, min_eq_right (by linarith), max_eq_right (by linarith)]

theorem clamp01_range (x : F) : 0 ≤ clamp01 x ∧ clamp01 x ≤ 1 := by
  unfold clamp01
  exact ⟨le_max_left _ _, max_le (by norm_num) (min_le_left _ _)⟩

theorem clamp01_of_mem (x : F) (h0 : 0 ≤ x) (h1 : x ≤ 1) : clamp01 x = x := by
  unfold clamp01
  rw [min_eq_right h1]
  exact max_eq_right h0

theorem c_int_of_fits (y : F) (h1 : -2147483648 ≤ trunc_toward_zero y)
    (h2 : trunc_toward_zero y ≤ 2147483647) : c_int y = trunc_toward_zero y := by
  unfold c_int
  rw [if_pos ⟨h1, h2⟩]

theorem trunc_intCast (z : Int) : trunc_toward_zero (z : F) = z := by
  unfold trunc_toward_zero
  by_cases h : (z : F) < 0
  · rw [if_pos h]
    have : -(z : F) = ((-z : Int) : F) := by push_cast; ring
    rw [this, Int.floor_intCast]
    omega
  · rw [if_neg h, Int.floor_intCast]

theorem c_int_intCast (z : Int) (h1 : -2147483648 ≤ z) (h2 : z ≤ 2147483647) :
    c_int (z : F) = z := by
  rw [c_int_of_fits _ (by rw [trunc_intCast]; exact h1) (by rw [trunc_intCast]; exact h2),
    trunc_intCast]

theorem trunc_byte (y : F) (h0 : 0 ≤ y) (h1 : y ≤ 255) :
    0 ≤ trunc_toward_zero y ∧ trunc_toward_zero y ≤ 255 := by
  rw [trunc_of_nonneg y h0]
  refine ⟨Int.floor_nonneg.2 h0, ?_⟩
  have : Int.floor y ≤ Int.floor (((255 : Int) : F)) := Int.floor_mono (by push_cast; exact h1)
  rwa [Int.floor_intCast] at this

theorem c_int_byte (y : F) (h0 : 0 ≤ y) (h1 : y ≤ 255) : c_int y = trunc_toward_zero y := by
  obtain ⟨ha, hb⟩ := trunc_byte y h0 h1
  exact c_int_of_fits y (by omega) (by omega)

theorem tone_cell_eq (m : LibM F) (cut expo : F) (max v : Int) (hmax : max ≠ 0)
    (hpow : ¬ (clamp01 (m.rnd (m.rnd (cut * (v : F)) / (max : F))) = 0 ∧ expo < 0)) :
    tone_cell m cut expo max v = .ok (c_int (m.rnd (255 *
      m.rnd (1 - m.pow (clamp01 (m.rnd (m.rnd (cut * (v : F)) / (max : F)))) expo)))) := by
  have hm : (max : F) ≠ 0 := by exact_mod_cast hmax
  unfold tone_cell
  simp only [c_div, hm, if_false, bind, Except.bind, MIN_MAX_eq_clamp01, c_pow, hpow, pure,
    Except.pure]

theorem rounded_value_range (m : LibM F) (hm : Sound m) (cut expo : F) (max v : Int)
    (hexpo : 0 ≤ expo) :
    0 ≤ m.rnd (255 *
        m.rnd (1 - m.pow (clamp01 (m.rnd (m.rnd (cut * (v : F)) / (max : F)))) expo)) ∧
      m.rnd (255 *
        m.rnd (1 - m.pow (clamp01 (m.rnd (m.rnd (cut * (v : F)) / (max : F)))) expo)) ≤ 255 := by
  obtain ⟨hmono, hz, hone, hbyte, hpw⟩ := hm
  obtain ⟨h0, h1⟩ := clamp01_range (m.rnd (m.rnd (cut * (v : F)) / (max : F)))
  obtain ⟨hp0, hp1⟩ := hpw _ expo h0 h1 hexpo
  have hs0 : 0 ≤ m.rnd (1 - m.pow (clamp01 (m.rnd (m.rnd (cut * (v : F)) / (max : F)))) expo) := by
    have := hmono 0 _ le_rfl (show (0 : F) ≤ 1 - m.pow _ expo by linarith)
    rwa [hz] at this
  have hs1 : m.rnd (1 - m.pow (clamp01 (m.rnd (m.rnd (cut * (v : F)) / (max : F)))) expo) ≤ 1 := by
    have := hmono _ 1 (show (0 : F) ≤ 1 - m.pow _ expo by linarith)
      (show 1 - m.pow _ expo ≤ (1 : F) by linarith)
    rwa [hone] at this
  constructor
  · have := hmono 0 _ le_rfl (show (0 : F) ≤ 255 * m.rnd (1 - m.pow _ expo) by nlinarith)
    rwa [hz] at this
  · have := hmono _ 255 (show (0 : F) ≤ 255 * m.rnd (1 - m.pow _ expo) by nlinarith)
      (show 255 * m.rnd (1 - m.pow _ expo) ≤ (255 : F) by nlinarith)
    rwa [hbyte] at this

theorem realLibM_sound : Sound realLibM := by
  refine ⟨fun x y _ h => h, rfl, rfl, rfl, ?_⟩
  intro x e h0 h1 he
  exact ⟨Real.rpow_nonneg h0 e, Real.rpow_le_one h0 h1 he⟩

end ToneProofs

end StrangeAttractor

/-! ## Claims on the accumulator -/

namespace StrangeAttractor

section AccumulatorClaims

variable {F : Type} [LinearOrderedField F] [FloorRing F]

theorem c_int_two_pow_32 : c_int (4294967296 : ℝ) = -2147483648 := by
  have ht : trunc_toward_zero (4294967296 : ℝ) = 4294967296 := by
    rw [trunc_of_nonneg _ (by norm_num)]
    have : (4294967296 : ℝ) = ((4294967296 : Int) : ℝ) := by norm_num
    rw [this, Int.floor_intCast]
  unfold c_int
  rw [ht]
  decide

theorem c_int_real_zero : c_int (0 : ℝ) = 0 := by
  have h : c_int (((0 : Int) : ℝ)) = 0 := c_int_intCast (0 : Int) (by decide) (by decide)
  simpa using h

theorem c_int_real_two : c_int (2 : ℝ) = 2 := by
  have h : c_int (((2 : Int) : ℝ)) = 2 := c_int_intCast (2 : Int) (by decide) (by decide)
  simpa using h

theorem c_int_real_three : c_int (3 : ℝ) = 3 := by
  have h : c_int (((3 : Int) : ℝ)) = 3 := c_int_intCast (3 : Int) (by decide) (by decide)
  simpa using h

theorem far_right_indices :
    cell_indices dblLibM 0 0 1 1 4 4 4294967296 0 = .ok (0, 0) := by
  rw [cell_indices_ok dblLibM 0 0 1 1 4 4 4294967296 0 one_ne_zero one_ne_zero]
  have hx : dquot dblLibM 0 1 (4294967296 : ℝ) = 4294967296 := by
    simp only [dquot, dblLibM, sub_zero, div_one, fl64_two_pow_32]
  have hy : dquot dblLibM 0 1 (0 : ℝ) = 0 := by
    simp only [dquot, dblLibM, sub_zero, div_one, fl64_zero]
  simp only [code_index, hx, hy, c_int_two_pow_32, c_int_real_zero]
  rfl

theorem below_one_indices :
    cell_indices dblLibM (-2) (-2) 1 1 4 4 (9007199254740991 / 9007199254740992) 0
      = .ok (3, 2) := by
  rw [cell_indices_ok dblLibM (-2) (-2) 1 1 4 4 _ 0 one_ne_zero one_ne_zero]
  have hx : dquot dblLibM (-2) 1 ((9007199254740991 : ℝ) / 9007199254740992) = 3 := by
    simp only [dquot, dblLibM, div_one, fl64_three_below, fl64_three]
  have hy : dquot dblLibM (-2) 1 (0 : ℝ) = 2 := by
    have : (0 : ℝ) - (-2) = 2 := by norm_num
    simp only [dquot, dblLibM, div_one, this, fl64_two]
  simp only [code_index, hx, hy, c_int_real_three, c_int_real_two]
  rfl

theorem spec_index_two_pow_32 : spec_index (0 : ℝ) 1 4 4294967296 = 3 := by
  unfold spec_index clamp_floor
  have : ((4294967296 : ℝ) - 0) / 1 = ((4294967296 : Int) : ℝ) := by norm_num
  rw [this, Int.floor_intCast]
  decide

theorem spec_index_below_one :
    spec_index (-2 : ℝ) 1 4 (9007199254740991 / 9007199254740992) = 2 := by
  unfold spec_index clamp_floor
  have hf : Int.floor (((9007199254740991 : ℝ) / 9007199254740992 - (-2)) / 1) = 2 := by
    rw [Int.floor_eq_iff]
    constructor <;> norm_num
  rw [hf]
  decide

/-- C1: for every pair of update functions, every viewport with non-zero
`dx` and `dy`, every grid size `Nx ≥ 1`, `Ny ≥ 1` and every iteration count
`N ≥ 0` (an `int`), `render_fractal` started on the all-zero `Ny × Nx` grid
returns a grid of the same shape whose cells are all non-negative and
whose cell sum is exactly `N`, whatever the rounding of the arithmetic. -/
theorem render_fractal_cell_sum (m : LibM F) (xnew ynew : F → F → F) (xmin ymin dx dy : F)
    (Nx Ny N : Int) (hdx : dx ≠ 0) (hdy : dy ≠ 0) (hNx : 1 ≤ Nx) (hNy : 1 ≤ Ny)
    (hN : 0 ≤ N) (hint : N < 2147483648) :
    ∃ g, render_fractal m xnew ynew xmin ymin dx dy Nx Ny N (calloc_2d_array Ny Nx) = .ok g ∧
      Shape g Ny.toNat Nx.toNat ∧ (∀ r ∈ g, ∀ v ∈ r, 0 ≤ v) ∧ grid_sum g = N := by
  obtain ⟨g, e, s, bd, sm, _⟩ :=
    render_fractal_spec m xnew ynew xmin ymin dx dy Nx Ny N hdx hdy hNx hNy hint
  refine ⟨g, e, s, fun r hr v hv => (bd r hr v hv).1, ?_⟩
  rw [sm]
  omega

/-- C2 fails on the code: the point `x = 2^32` on the viewport
`[0, 4] × [0, 4]` with unit cells and `Nx = Ny = 4` lies beyond `xmax`,
yet the indices computed in `render_fractal` put it in column `0`, not in
column `Nx - 1 = 3`: the quotient `2^32` does not fit an `int`, the cast
gives `INT_MIN`, `MIN` keeps it and `MAX` turns it into `0`. -/
theorem cell_indices_far_right :
    cell_indices dblLibM 0 0 1 1 4 4 4294967296 0 = .ok (0, 0) ∧
    (0 : ℝ) + ((4 : Int) : ℝ) * 1 ≤ 4294967296 ∧ (4 : Int) - 1 = 3 :=
  ⟨far_right_indices, by norm_num, by decide⟩

/-- C10: for every update pair, `Nx, Ny ≥ 1` and non-zero `dx`, `dy`, the
maximum found by the histogram-max scan over the grid left by
`render_fractal` satisfies `1 ≤ max ≤ N` when `N ≥ 1` and `max = 0` when
`N ≤ 0`, whatever the rounding of the arithmetic. -/
theorem hist_max_render_fractal (m : LibM F) (xnew ynew : F → F → F) (xmin ymin dx dy : F)
    (Nx Ny N : Int) (hdx : dx ≠ 0) (hdy : dy ≠ 0) (hNx : 1 ≤ Nx) (hNy : 1 ≤ Ny)
    (hint : N < 2147483648) :
    ∃ g, render_fractal m xnew ynew xmin ymin dx dy Nx Ny N (calloc_2d_array Ny Nx) = .ok g ∧
      (1 ≤ N → 1 ≤ hist_max g ∧ hist_max g ≤ N) ∧ (N ≤ 0 → hist_max g = 0) := by
  obtain ⟨g, e, _, bd, sm, _⟩ :=
    render_fractal_spec m xnew ynew xmin ymin dx dy Nx Ny N hdx hdy hNx hNy hint
  obtain ⟨h0, hge⟩ := hist_max_ge g
  have hle : hist_max g ≤ (N.toNat : Int) := by
    rcases hist_max_mem g with h | ⟨r, hr, h⟩
    · rw [h]; omega
    · exact (bd r hr _ h).2
  refine ⟨g, e, ?_, ?_⟩
  · intro hN
    refine ⟨?_, by omega⟩
    by_contra hlt
    have hnp : grid_sum g ≤ 0 := grid_sum_nonpos g (fun r hr v hv => by
      have := hge r hr v hv
      omega)
    omega
  · intro hN
    omega

/-- C9, as the code has it: for every update pair, `Nx, Ny ≥ 1`,
`dx, dy > 0` and `N ≥ 0` (an `int`), `render_fractal` returns a grid whose
cell `(j, i)` is the number of `k` in `51 .. 50 + N` for which the program
computes column `i` and row `j` for the trajectory point `p_k`; the
indices it computes are the cast of the computed quotient followed by
`MIN` and `MAX`, and these equal the floor of the computed quotient
clamped to `[0, Nx - 1]` (to `[0, Ny - 1]`) whenever that quotient is below
`2^31`, negative quotients included. -/
theorem render_fractal_histogram (m : LibM F) (xnew ynew : F → F → F) (xmin ymin dx dy : F)
    (Nx Ny : Int) (N : Nat) (hNx : 1 ≤ Nx) (hNy : 1 ≤ Ny) (hdx : 0 < dx) (hdy : 0 < dy)
    (hint : (N : Int) < 2147483648) :
    (∃ g, render_fractal m xnew ynew xmin ymin dx dy Nx Ny (N : Int) (calloc_2d_array Ny Nx)
        = .ok g ∧ Shape g Ny.toNat Nx.toNat ∧
      ∀ j i : Nat, (j : Int) < Ny → (i : Int) < Nx →
        cell g j i = code_count m xnew ynew xmin ymin dx dy Nx Ny N j i) ∧
    (∀ x y : F, cell_indices m xmin ymin dx dy Nx Ny x y =
      .ok (code_index m xmin dx Nx x, code_index m ymin dy Ny y)) ∧
    (∀ x : F, dquot m xmin dx x < 2147483648 →
      code_index m xmin dx Nx x = clamp_floor Nx (dquot m xmin dx x)) ∧
    (∀ y : F, dquot m ymin dy y < 2147483648 →
      code_index m ymin dy Ny y = clamp_floor Ny (dquot m ymin dy y)) := by
  refine ⟨?_, ?_, ?_, ?_⟩
  · obtain ⟨g, e, s, _, _, c⟩ := render_fractal_spec m xnew ynew xmin ymin dx dy Nx Ny
      (N : Int) hdx.ne.symm hdy.ne.symm hNx hNy hint
    refine ⟨g, e, s, ?_⟩
    intro j i _ _
    simpa using c j i
  · intro x y
    exact cell_indices_ok m xmin ymin dx dy Nx Ny x y hdx.ne.symm hdy.ne.symm
  · intro x hx
    exact clamp_cast_eq_floor Nx hNx _ hx
  · intro y hy
    exact clamp_cast_eq_floor Ny hNy _ hy

/-- C9 fails as stated, in two ways. First, by rounding: with the
constant update pair `(1 - 2^-53, 0)` on the viewport `[-2, 2] × [-2, 2]`
with unit cells, `Nx = Ny = 4` and `N = 1`, the difference `x - xmin` is
rounded to `3`, so the one counted point is put in cell `(2, 3)`, while the
floor of the exact quotient is column `2` and the count of the
specification for cell `(2, 3)` is `0`. Second, by the cast: with the
constant update pair `(2^32, 0)` on the viewport `[0, 4] × [0, 4]` the
point is put in cell `(0, 0)`, while the floor of its quotient clamped to
`[0, 3]` is column `3`. -/
theorem render_fractal_not_exact_histogram :
    (render_fractal dblLibM (fun _ _ => 9007199254740991 / 9007199254740992) (fun _ _ => 0)
        (-2) (-2) 1 1 4 4 1 (calloc_2d_array 4 4)
      = .ok [[0, 0, 0, 0], [0, 0, 0, 0], [0, 0, 0, 1], [0, 0, 0, 0]] ∧
    spec_index (-2 : ℝ) 1 4 (9007199254740991 / 9007199254740992) = 2 ∧
    spec_count dblLibM (fun _ _ => 9007199254740991 / 9007199254740992) (fun _ _ => 0)
      (-2) (-2) 1 1 4 4 1 2 3 = 0) ∧
    (render_fractal dblLibM (fun _ _ => 4294967296) (fun _ _ => 0) 0 0 1 1 4 4 1
        (calloc_2d_array 4 4)
      = .ok [[1, 0, 0, 0], [0, 0, 0, 0], [0, 0, 0, 0], [0, 0, 0, 0]] ∧
    spec_index (0 : ℝ) 1 4 4294967296 = 3 ∧
    spec_count dblLibM (fun _ _ => 4294967296) (fun _ _ => 0) 0 0 1 1 4 4 1 0 0 = 0) := by
  refine ⟨⟨?_, spec_index_below_one, ?_⟩, ⟨?_, spec_index_two_pow_32, ?_⟩⟩
  · have hinc : sample_incr (calloc_2d_array 4 4) 2 3
        = .ok [[0, 0, 0, 0], [0, 0, 0, 0], [0, 0, 0, 1], [0, 0, 0, 0]] := by rfl
    simp only [render_fractal, Int.toNat_one, iterate_loop, below_one_indices, bind,
      Except.bind, hinc]
  · unfold spec_count
    rw [Finset.card_eq_zero, Finset.filter_eq_empty_iff]
    intro k hk hc
    have hk2 : k = 50 + 1 := by
      simp only [Finset.mem_Icc] at hk
      omega
    subst hk2
    have ho : (orbit dblLibM (fun _ _ => (9007199254740991 : ℝ) / 9007199254740992)
        (fun _ _ => (0 : ℝ)) (50 + 1)).1 = 9007199254740991 / 9007199254740992 := rfl
    rw [ho, spec_index_below_one] at hc
    exact absurd hc.1 (by decide)
  · have hinc : sample_incr (calloc_2d_array 4 4) 0 0
        = .ok [[1, 0, 0, 0], [0, 0, 0, 0], [0, 0, 0, 0], [0, 0, 0, 0]] := by rfl
    simp only [render_fractal, Int.toNat_one, iterate_loop, far_right_indices, bind,
      Except.bind, hinc]
  · unfold spec_count
    rw [Finset.card_eq_zero, Finset.filter_eq_empty_iff]
    intro k hk hc
    have hk2 : k = 50 + 1 := by
      simp only [Finset.mem_Icc] at hk
      omega
    subst hk2
    have ho : (orbit dblLibM (fun _ _ => (4294967296 : ℝ)) (fun _ _ => (0 : ℝ)) (50 + 1)).1
        = 4294967296 := rfl
    rw [ho, spec_index_two_pow_32] at hc
    exact absurd hc.1 (by decide)

/-- The scenario of the specification with binary64 rounding: the Clifford
map with `a = b = c = d = 2` on a `4 × 4` grid over `[-2, 2] × [-2, 2]`,
1000 points. -/
theorem render_fractal_cell_sum_witness :
    ∃ g, render_fractal dblLibM (xnew_clifford dblLibM 2 2) (ynew_clifford dblLibM 2 2)
        (-2) (-2) 1 1 4 4 1000 (calloc_2d_array 4 4) = .ok g ∧
      Shape g (4 : Int).toNat (4 : Int).toNat ∧ (∀ r ∈ g, ∀ v ∈ r, 0 ≤ v) ∧
      grid_sum g = 1000 :=
  render_fractal_cell_sum dblLibM (xnew_clifford dblLibM 2 2) (ynew_clifford dblLibM 2 2)
    (-2) (-2) 1 1 4 4 1000 one_ne_zero one_ne_zero (by decide) (by decide) (by decide)
    (by decide)

/-- The scenario of the specification with binary64 rounding, cell by cell. -/
theorem render_fractal_histogram_witness :
    (∃ g, render_fractal dblLibM (xnew_clifford dblLibM 2 2) (ynew_clifford dblLibM 2 2)
        (-2) (-2) 1 1 4 4 ((1000 : Nat) : Int) (calloc_2d_array 4 4) = .ok g ∧
      Shape g (4 : Int).toNat (4 : Int).toNat ∧
      ∀ j i : Nat, (j : Int) < 4 → (i : Int) < 4 →
        cell g j i = code_count dblLibM (xnew_clifford dblLibM 2 2) (ynew_clifford dblLibM 2 2)
          (-2) (-2) 1 1 4 4 1000 j i) ∧
    (∀ x y : ℝ, cell_indices dblLibM (-2) (-2) 1 1 4 4 x y =
      .ok (code_index dblLibM (-2) 1 4 x, code_index dblLibM (-2) 1 4 y)) ∧
    (∀ x : ℝ, dquot dblLibM (-2) 1 x < 2147483648 →
      code_index dblLibM (-2) 1 4 x = clamp_floor 4 (dquot dblLibM (-2) 1 x)) ∧
    (∀ y : ℝ, dquot dblLibM (-2) 1 y < 2147483648 →
      code_index dblLibM (-2) 1 4 y = clamp_floor 4 (dquot dblLibM (-2) 1 y)) :=
  render_fractal_histogram dblLibM (xnew_clifford dblLibM 2 2) (ynew_clifford dblLibM 2 2)
    (-2) (-2) 1 1 4 4 1000 (by decide) (by decide) one_pos one_pos (by decide)

/-- The scenario of the specification with binary64 rounding: the maximum
lies in `1 .. 1000`. -/
theorem hist_max_render_fractal_witness :
    ∃ g, render_fractal dblLibM (xnew_clifford dblLibM 2 2) (ynew_clifford dblLibM 2 2)
        (-2) (-2) 1 1 4 4 1000 (calloc_2d_array 4 4) = .ok g ∧
      ((1 : Int) ≤ 1000 → 1 ≤ hist_max g ∧ hist_max g ≤ 1000) ∧
      ((1000 : Int) ≤ 0 → hist_max g = 0) :=
  hist_max_render_fractal dblLibM (xnew_clifford dblLibM 2 2) (ynew_clifford dblLibM 2 2)
    (-2) (-2) 1 1 4 4 1000 one_ne_zero one_ne_zero (by decide) (by decide) (by decide)

end AccumulatorClaims

end StrangeAttractor

/-! ## Claims on the tone mapper -/

namespace StrangeAttractor

section ToneClaims

variable {F : Type} [LinearOrderedField F] [FloorRing F]

theorem tone_map_pixel (m : LibM F) (cut expo : F) (max : Int) (g : Grid) (j i : Nat) :
    pixel (tone_map m cut expo max g) j i = (pixel g j i).map (tone_cell m cut expo max) :=
  pixel_map (tone_cell m cut expo max) g j i

/-- C6, as the code has it: in a floating-point environment whose rounding
is monotone and leaves `0`, `1` and `255` as they are and whose `pow` maps
`[0, 1] × [0, ∞)` into `[0, 1]`, for a grid whose maximum is `> 0`, every
`cut` and every `expo ≥ 0`, the maximum used by the pass is the largest
cell value of the grid, and the value stored for a cell of count `v` is an
integer in `[0, 255]`: the formula `255 * (1 - clamp01(cut * v / max) ^ expo)`
evaluated in the arithmetic of the program, every operation rounded, and
truncated toward zero. -/
theorem tone_map_values (m : LibM F) (hm : Sound m) (g : Grid) (cut expo : F)
    (hmax : 0 < hist_max g) (hexpo : 0 ≤ expo) :
    ((∀ r ∈ g, ∀ v ∈ r, v ≤ hist_max g) ∧ ∃ r ∈ g, hist_max g ∈ r) ∧
    ∀ j i v, pixel g j i = some v →
      pixel (tone_map m cut expo (hist_max g) g) j i =
        some (.ok (rounded_intensity m cut expo (hist_max g) v)) ∧
      0 ≤ rounded_intensity m cut expo (hist_max g) v ∧
      rounded_intensity m cut expo (hist_max g) v ≤ 255 := by
  refine ⟨⟨(hist_max_ge g).2, ?_⟩, ?_⟩
  · rcases hist_max_mem g with h | h
    · omega
    · exact h
  · intro j i v hp
    obtain ⟨h0, h1⟩ := rounded_value_range m hm cut expo (hist_max g) v hexpo
    refine ⟨?_, trunc_byte _ h0 h1⟩
    rw [tone_map_pixel, hp, Option.map_some',
      tone_cell_eq m cut expo _ v hmax.ne.symm (fun hc => absurd hc.2 (not_lt.2 hexpo)),
      c_int_byte _ h0 h1]
    rfl

/-- C6 fails as stated: in binary64, with `cut = 1` and `expo = 1` on the
grid `[[5, 4]]` (maximum 5), the value stored for the cell of count 4 is
`50`, while `255 * (1 - clamp01(1 * 4 / 5) ^ 1)` is `51`: the quotient
`4 / 5` is rounded up, so the product falls just below `51` and is
truncated to `50`. -/
theorem tone_map_rounds_below_formula :
    hist_max [[5, 4]] = 5 ∧
    pixel (tone_map dblLibM 1 1 5 [[5, 4]]) 0 1 = some (.ok 50) ∧
    spec_intensity 1 1 5 4 = 51 := by
  refine ⟨by decide, ?_, ?_⟩
  · have hq : fl64 (fl64 ((1 : ℝ) * ((4 : Int) : ℝ)) / ((5 : Int) : ℝ))
        = 3602879701896397 / 4503599627370496 := by
      have h4 : (1 : ℝ) * ((4 : Int) : ℝ) = 4 := by norm_num
      have h5 : ((5 : Int) : ℝ) = 5 := by norm_num
      rw [h4, h5, fl64_four, fl64_four_fifths]
    have hc : clamp01 ((3602879701896397 : ℝ) / 4503599627370496)
        = 3602879701896397 / 4503599627370496 := by
      rw [clamp01_of_mem] <;> norm_num
    have hcell : tone_cell dblLibM 1 1 5 4 = .ok 50 := by
      rw [tone_cell_eq dblLibM 1 1 5 4 (by decide) (fun h => absurd h.2 (by norm_num))]
      simp only [dblLibM]
      rw [hq, hc, Real.rpow_one, fl64_four_fifths_fixed]
      have hs : (1 : ℝ) - 3602879701896397 / 4503599627370496
          = 900719925474099 / 4503599627370496 := by norm_num
      have hp : (255 : ℝ) * (900719925474099 / 4503599627370496)
          = 229683580995895245 / 4503599627370496 := by norm_num
      rw [hs, fl64_one_fifth_below, hp, fl64_fifty_one_below]
      have ht : trunc_toward_zero ((3588805953060863 : ℝ) / 70368744177664) = 50 := by
        rw [trunc_of_nonneg _ (by norm_num), Int.floor_eq_iff]
        constructor <;> norm_num
      rw [c_int_of_fits _ (by rw [ht]; decide) (by rw [ht]; decide), ht]
    rw [tone_map_pixel]
    show Option.map (tone_cell dblLibM 1 1 5) (some 4) = _
    rw [Option.map_some', hcell]
  · unfold spec_intensity
    have hc : clamp01 ((1 : ℝ) * ((4 : Int) : ℝ) / ((5 : Int) : ℝ)) = 4 / 5 := by
      rw [clamp01_of_mem] <;> norm_num
    rw [hc, Real.rpow_one]
    have : (255 : ℝ) * (1 - 4 / 5) = ((51 : Int) : ℝ) := by norm_num
    rw [this, trunc_intCast]

/-- Binary64 with the default `cut` and `expo` on the grid `[[4, 2, 1]]`. -/
theorem tone_map_values_witness :
    ((∀ r ∈ [[4, 2, 1]], ∀ v ∈ r, v ≤ hist_max [[4, 2, 1]]) ∧
      ∃ r ∈ [[4, 2, 1]], hist_max [[4, 2, 1]] ∈ r) ∧
    ∀ j i v, pixel [[4, 2, 1]] j i = some v →
      pixel (tone_map dblLibM 10 (1 / 2) (hist_max [[4, 2, 1]]) [[4, 2, 1]]) j i =
        some (.ok (rounded_intensity dblLibM 10 (1 / 2) (hist_max [[4, 2, 1]]) v)) ∧
      0 ≤ rounded_intensity dblLibM 10 (1 / 2) (hist_max [[4, 2, 1]]) v ∧
      rounded_intensity dblLibM 10 (1 / 2) (hist_max [[4, 2, 1]]) v ≤ 255 :=
  tone_map_values dblLibM dblLibM_sound [[4, 2, 1]] 10 (1 / 2) (by decide) (by norm_num)

end ToneClaims

end StrangeAttractor

/-! ## The configuration -/

namespace StrangeAttractor

section ConfigProofs

variable {F : Type} [LinearOrderedField F] [FloorRing F]

theorem par_of_provides (Nx Ny : Int) (npts cx cy Lx a b c d : F) (method : Option String) :
    Provides (par_of Nx Ny npts cx cy Lx a b c d method) Nx Ny npts cx cy Lx a b c d := by
  simp [Provides, par_of]

theorem process_input_ok (m : LibM F) (p : ParFile F) (Nx Ny : Int)
    (npts cx cy Lx a b c d : F) (hp : Provides p Nx Ny npts cx cy Lx a b c d)
    (hNx : Nx ≠ 0) (hNy : Ny ≠ 0) :
    ∃ cfg, process_input m p = .ok cfg ∧
      cfg.Nx = Nx ∧ cfg.Ny = Ny ∧ cfg.iter_max = c_int npts ∧
      cfg.Lx = Lx ∧ cfg.Ly = m.rnd (m.rnd (Lx * (Ny : F)) / (Nx : F)) ∧
      cfg.xmin = m.rnd (cx - m.rnd (Lx / 2)) ∧ cfg.xmax = m.rnd (cx + m.rnd (Lx / 2)) ∧
      cfg.ymin = m.rnd (cy - m.rnd (cfg.Ly / 2)) ∧ cfg.ymax = m.rnd (cy + m.rnd (cfg.Ly / 2)) ∧
      cfg.dx = m.rnd (Lx / (Nx : F)) ∧ cfg.dy = m.rnd (cfg.Ly / (Ny : F)) ∧
      cfg.aa = a ∧ cfg.bb = b ∧ cfg.cc = c ∧ cfg.dd = d ∧
      cfg.method = (p.strings "fractal" "method").getD "clifford" ∧
      cfg.xnew = (if cfg.method = "peter" then xnew_peter m a b
        else if cfg.method = "svensson" then xnew_svensson m a b d
        else xnew_clifford m a c) ∧
      cfg.ynew = (if cfg.method = "peter" then ynew_peter m c d
        else if cfg.method = "svensson" then ynew_svensson m a b c
        else ynew_clifford m b d) := by
  obtain ⟨h1, h2, h3, h4, h5, h6, h7, h8, h9, h10⟩ := hp
  have hx : (Nx : F) ≠ 0 := by exact_mod_cast hNx
  have hy : (Ny : F) ≠ 0 := by exact_mod_cast hNy
  simp only [process_input, par_geti, par_getd, h1, h2, h3, h4, h5, h6, h7, h8, h9, h10,
    c_div, hx, hy, if_false, bind, Except.bind, pure, Except.pure]
  refine ⟨_, rfl, rfl, rfl, rfl, rfl, rfl, rfl, rfl, rfl, rfl, rfl, rfl, rfl, rfl, rfl, rfl,
    rfl, ?_, ?_⟩
  · simp only [par_gets_def]
    split_ifs <;> rfl
  · simp only [par_gets_def]
    split_ifs <;> rfl

end ConfigProofs

end StrangeAttractor

/-! ## Claims on the configuration -/

namespace StrangeAttractor

section ConfigClaims

variable {F : Type} [LinearOrderedField F] [FloorRing F]

theorem hist_max_calloc (Ny Nx : Int) : hist_max (calloc_2d_array Ny Nx) = 0 := by
  obtain ⟨h0, _⟩ := hist_max_ge (calloc_2d_array Ny Nx)
  rcases hist_max_mem (calloc_2d_array Ny Nx) with h | ⟨r, hr, h⟩
  · exact h
  · have := (calloc_bounded Ny Nx r hr _ h).2
    omega

theorem c_int_zero : c_int (0 : F) = 0 := by
  have h : c_int (((0 : Int) : F)) = 0 := c_int_intCast (0 : Int) (by decide) (by decide)
  simpa using h

theorem zero_points_run (m : LibM F) (p : ParFile F) (Nx Ny : Int)
    (cx cy Lx a b c d : F) (hp : Provides p Nx Ny 0 cx cy Lx a b c d)
    (hNx : Nx ≠ 0) (hNy : Ny ≠ 0) :
    ∃ cfg, process_input m p = .ok cfg ∧ cfg.iter_max = 0 ∧
      main m p = .ok (cfg, calloc_2d_array Ny Nx, 0,
        tone_map m cfg.cut cfg.expo 0 (calloc_2d_array Ny Nx)) := by
  obtain ⟨cfg, h, e1, e2, e3, _⟩ := process_input_ok m p Nx Ny 0 cx cy Lx a b c d hp hNx hNy
  rw [c_int_zero] at e3
  refine ⟨cfg, h, e3, ?_⟩
  simp only [main, h, bind, Except.bind, e1, e2, e3, render_fractal, Int.toNat_zero,
    iterate_loop, hist_max_calloc, pure, Except.pure]

/-- C4: `process_input` resolves the update pair by exact match of the
method name: `"peter"` gives `x' = sin(a y) - cos(b x)`,
`y' = sin(c x) - cos(d y)`; `"svensson"` gives `x' = d sin(a x) - sin(b y)`,
`y' = c cos(a x) + cos(b y)`; every other value of the key, an unset key
included, gives `x' = sin(a y) + c cos(a x)`, `y' = sin(b x) + d cos(b y)`,
and no value of the key makes `process_input` fail. -/
theorem process_input_method (m : LibM F) (p : ParFile F) (Nx Ny : Int)
    (npts cx cy Lx a b c d : F) (hp : Provides p Nx Ny npts cx cy Lx a b c d)
    (hNx : Nx ≠ 0) (hNy : Ny ≠ 0) :
    ∃ cfg, process_input m p = .ok cfg ∧
      (p.strings "fractal" "method" = some "peter" → ∀ x y,
        cfg.xnew x y = m.sin (a * y) - m.cos (b * x) ∧
        cfg.ynew x y = m.sin (c * x) - m.cos (d * y)) ∧
      (p.strings "fractal" "method" = some "svensson" → ∀ x y,
        cfg.xnew x y = d * m.sin (a * x) - m.sin (b * y) ∧
        cfg.ynew x y = c * m.cos (a * x) + m.cos (b * y)) ∧
      (p.strings "fractal" "method" ≠ some "peter" →
        p.strings "fractal" "method" ≠ some "svensson" → ∀ x y,
        cfg.xnew x y = m.sin (a * y) + c * m.cos (a * x) ∧
        cfg.ynew x y = m.sin (b * x) + d * m.cos (b * y)) := by
  obtain ⟨cfg, h, _, _, _, _, _, _, _, _, _, _, _, _, _, _, _, hm, hx, hy⟩ :=
    process_input_ok m p Nx Ny npts cx cy Lx a b c d hp hNx hNy
  refine ⟨cfg, h, ?_, ?_, ?_⟩
  · intro hs x y
    have hmeth : cfg.method = "peter" := by rw [hm, hs]; rfl
    rw [hx, hy, if_pos hmeth, if_pos hmeth]
    exact ⟨rfl, rfl⟩
  · intro hs x y
    have hmeth : cfg.method = "svensson" := by rw [hm, hs]; rfl
    have hne : cfg.method ≠ "peter" := by rw [hmeth]; decide
    rw [hx, hy, if_neg hne, if_neg hne, if_pos hmeth, if_pos hmeth]
    exact ⟨rfl, rfl⟩
  · intro h1 h2 x y
    have hne1 : cfg.method ≠ "peter" := by
      rw [hm]
      cases hs : p.strings "fractal" "method" with
      | none => decide
      | some s =>
        intro hc
        apply h1
        rw [hs]
        simpa using hc
    have hne2 : cfg.method ≠ "svensson" := by
      rw [hm]
      cases hs : p.strings "fractal" "method" with
      | none => decide
      | some s =>
        intro hc
        apply h2
        rw [hs]
        simpa using hc
    rw [hx, hy, if_neg hne1, if_neg hne1, if_neg hne2, if_neg hne2]
    exact ⟨rfl, rfl⟩

/-- C7, as the code has it: an iteration count of 0 is not rejected. When
the configured `npts` is 0 (mandatory keys present, `Nx` and `Ny`
non-zero), `process_input` succeeds with `iter_max = 0`, the accumulation
pass leaves the grid all zero, and the histogram-max scan is reached and
finds `max = 0`, with which the tone-mapping pass is run. -/
theorem main_accepts_zero_points (m : LibM F) (p : ParFile F) (Nx Ny : Int)
    (cx cy Lx a b c d : F) (hp : Provides p Nx Ny 0 cx cy Lx a b c d)
    (hNx : Nx ≠ 0) (hNy : Ny ≠ 0) :
    ∃ cfg, process_input m p = .ok cfg ∧ cfg.iter_max = 0 ∧
      main m p = .ok (cfg, calloc_2d_array Ny Nx, 0,
        tone_map m cfg.cut cfg.expo 0 (calloc_2d_array Ny Nx)) :=
  zero_points_run m p Nx Ny cx cy Lx a b c d hp hNx hNy

/-- The spelling `"Peter"` selects the Clifford formulas. -/
theorem process_input_method_witness :
    ∃ cfg, process_input realLibM (par_of 4 4 1000 0 0 4 2 2 2 2 (some "Peter")) = .ok cfg ∧
      ∀ x y, cfg.xnew x y = Real.sin (2 * y) + 2 * Real.cos (2 * x) ∧
        cfg.ynew x y = Real.sin (2 * x) + 2 * Real.cos (2 * y) := by
  obtain ⟨cfg, h, _, _, h3⟩ := process_input_method realLibM
    (par_of 4 4 1000 0 0 4 2 2 2 2 (some "Peter")) 4 4 1000 0 0 4 2 2 2 2
    (par_of_provides 4 4 1000 0 0 4 2 2 2 2 (some "Peter")) (by decide) (by decide)
  exact ⟨cfg, h, h3 (by simp [par_of]) (by simp [par_of])⟩

/-- The scenario of the specification with `npts = 0`. -/
theorem main_accepts_zero_points_witness :
    ∃ cfg, process_input realLibM (par_of 4 4 0 0 0 4 2 2 2 2 none) = .ok cfg ∧
      cfg.iter_max = 0 ∧
      main realLibM (par_of 4 4 0 0 0 4 2 2 2 2 none) = .ok (cfg, calloc_2d_array 4 4, 0,
        tone_map realLibM cfg.cut cfg.expo 0 (calloc_2d_array 4 4)) :=
  main_accepts_zero_points realLibM (par_of 4 4 0 0 0 4 2 2 2 2 none) 4 4 0 0 4 2 2 2 2
    (par_of_provides 4 4 0 0 0 4 2 2 2 2 none) (by decide) (by decide)

/-- C7 fails as stated: with `npts = 0` on a `4 × 4` grid `process_input`
returns a configuration with `iter_max = 0`, and `main` goes on to the
all-zero grid, the maximum 0 and a tone-mapping pass every cell of which
divides by zero. -/
theorem main_zero_points_not_rejected :
    (process_input realLibM (par_of 4 4 0 0 0 4 2 2 2 2 none)).toOption.map Config.iter_max
      = some 0 ∧
    (main realLibM (par_of 4 4 0 0 0 4 2 2 2 2 none)).toOption.map
        (fun r => (r.2.1, r.2.2.1, r.2.2.2))
      = some (List.replicate 4 (List.replicate 4 0), 0,
          List.replicate 4 (List.replicate 4 (.error .non_finite))) := by
  obtain ⟨cfg, h, e, hmain⟩ := zero_points_run realLibM (par_of 4 4 0 0 0 4 2 2 2 2 none)
    4 4 0 0 4 2 2 2 2 (par_of_provides 4 4 0 0 0 4 2 2 2 2 none) (by decide) (by decide)
  rw [h, hmain]
  refine ⟨by simp [Except.toOption, e], ?_⟩
  simp [Except.toOption, calloc_2d_array, tone_map, tone_cell, c_div, bind, Except.bind]

end ConfigClaims

end StrangeAttractor

